import Mathlib

/-!
Verification of the `goquote` command-line formatter.

The repository holds two versions of the program: `src/goquote.go` (the older
revision) and `src/unnamed/part_000` (the current revision, which adds the
JSON mode `j`).  Both center on a single function `write(buf, b, mode)` that
appends to a byte buffer the textual literal of the byte slice `b` selected by
the mode string.  We embed that function -- and the parts of the Go standard
library it calls (`strconv.Quote`, `strconv.QuoteToASCII`,
`strconv.CanBackquote`, `strconv.FormatUint`, `strconv.Itoa`,
`encoding/json` string marshalling, and package `unicode/utf8`) -- as
executable Lean functions over `List Nat` byte sequences, and prove the
specified properties about them.

Modelling conventions:
* A byte sequence is a `List Nat`; where byte-ness matters a theorem carries
  the hypothesis that every element is below 256.
* Go strings are byte sequences, so the output buffer is also a `List Nat`.
* Loops that consume at least one byte per iteration are written with an
  explicit fuel argument (structural recursion on the fuel); the public
  wrapper passes the length of the input, which is always enough fuel, so the
  fuel case `0` with nonempty input is unreachable.  This keeps every
  definition kernel-computable.
-/

namespace GoQuote

/-- ASCII byte sequence of a Lean string literal (every character used is
below 128, matching the Go source literals being modelled). -/
def ascii (s : String) : List Nat := s.toList.map Char.toNat

/-- Digit byte in lower-case, as indexing Go's `lowerhex`/digit tables does:
`0`-`9` then `a`-`f`. -/
def digitByte (d : Nat) : Nat := if d < 10 then 48 + d else 87 + d

/-- Models `strconv.FormatUint(n, base)` (and `strconv.Itoa` at base 10):
the base-`base` digits of `n`, most significant first, lower-case.
Fuel-based; `n + 1` units of fuel always suffice. -/
def formatUintF (base : Nat) : Nat → Nat → List Nat
  | 0, _ => []
  | fuel + 1, n =>
    if n < base then [digitByte n]
    else formatUintF base fuel (n / base) ++ [digitByte (n % base)]

/-- Models `strconv.FormatUint(n, base)`. -/
def formatUint (n base : Nat) : List Nat := formatUintF base (n + 1) n

/-- The numeric value denoted by a list of decimal digit bytes (used to state
that the `[N]byte` length annotation denotes exactly the byte count). -/
def decValue (ds : List Nat) : Nat := ds.foldl (fun a d => 10 * a + (d - 48)) 0

/-- The `k` low hex digit bytes of `r`, most significant first, lower case:
this is what the Go source emits with `lowerhex[r>>s&0xF]` for
`s = 4*(k-1), ..., 4, 0`. -/
def hexN : Nat → Nat → List Nat
  | 0, _ => []
  | k + 1, r => hexN k (r / 16) ++ [digitByte (r % 16)]

/-- Models `unhex` from `strconv`: value of one hex digit byte. -/
def hexVal (c : Nat) : Option Nat :=
  if 48 ≤ c ∧ c ≤ 57 then some (c - 48)
  else if 97 ≤ c ∧ c ≤ 102 then some (c - 87)
  else if 65 ≤ c ∧ c ≤ 70 then some (c - 55)
  else none

/-- Models `utf8.ValidRune`: a legal Unicode code point outside the
surrogate range. -/
def validRune (r : Nat) : Bool := decide (r < 0xD800 ∨ (0xDFFF < r ∧ r ≤ 0x10FFFF))

/-- Models `utf8.DecodeRune` / `utf8.DecodeRuneInString` on a byte sequence:
returns the first rune and its encoded width.  On empty input it returns
`(RuneError, 0)`; on any invalid, truncated, overlong or surrogate encoding it
returns `(RuneError, 1)`, where `RuneError = 0xFFFD`.  The accept windows for
the second byte mirror Go's `acceptRanges` table. -/
def utf8Decode : List Nat → Nat × Nat
  | [] => (0xFFFD, 0)
  | c0 :: rest =>
    if c0 < 0x80 then (c0, 1)
    else if 0xC2 ≤ c0 ∧ c0 ≤ 0xDF then
      match rest with
      | c1 :: _ =>
        if 0x80 ≤ c1 ∧ c1 ≤ 0xBF then ((c0 - 0xC0) * 64 + (c1 - 0x80), 2)
        else (0xFFFD, 1)
      | [] => (0xFFFD, 1)
    else if 0xE0 ≤ c0 ∧ c0 ≤ 0xEF then
      match rest with
      | c1 :: c2 :: _ =>
        if ((if c0 = 0xE0 then 0xA0 else 0x80) ≤ c1 ∧
            c1 ≤ (if c0 = 0xED then 0x9F else 0xBF)) ∧
           (0x80 ≤ c2 ∧ c2 ≤ 0xBF) then
          ((c0 - 0xE0) * 4096 + (c1 - 0x80) * 64 + (c2 - 0x80), 3)
        else (0xFFFD, 1)
      | _ => (0xFFFD, 1)
    else if 0xF0 ≤ c0 ∧ c0 ≤ 0xF4 then
      match rest with
      | c1 :: c2 :: c3 :: _ =>
        if ((if c0 = 0xF0 then 0x90 else 0x80) ≤ c1 ∧
            c1 ≤ (if c0 = 0xF4 then 0x8F else 0xBF)) ∧
           (0x80 ≤ c2 ∧ c2 ≤ 0xBF) ∧ (0x80 ≤ c3 ∧ c3 ≤ 0xBF) then
          ((c0 - 0xF0) * 0x40000 + (c1 - 0x80) * 4096 + (c2 - 0x80) * 64 + (c3 - 0x80), 4)
        else (0xFFFD, 1)
      | _ => (0xFFFD, 1)
    else (0xFFFD, 1)

/-- Models `utf8.EncodeRune`/`utf8.AppendRune`: the UTF-8 bytes of rune `r`;
surrogates and out-of-range values encode the replacement character, as in Go. -/
def utf8Encode (r : Nat) : List Nat :=
  if r < 0x80 then [r]
  else if r < 0x800 then [0xC0 + r / 64, 0x80 + r % 64]
  else if (0xD800 ≤ r ∧ r ≤ 0xDFFF) ∨ 0x10FFFF < r then [0xEF, 0xBF, 0xBD]
  else if r < 0x10000 then [0xE0 + r / 4096, 0x80 + r / 64 % 64, 0x80 + r % 64]
  else [0xF0 + r / 0x40000, 0x80 + r / 4096 % 64, 0x80 + r / 64 % 64, 0x80 + r % 64]

/-- Models `utf8.Valid`: the byte sequence is a concatenation of valid UTF-8
encodings (fuel-based loop over `utf8Decode`). -/
def utf8ValidF : Nat → List Nat → Bool
  | 0, _ => true
  | fuel + 1, s =>
    match s with
    | [] => true
    | _ :: _ =>
      let rw := utf8Decode s
      if rw.2 = 1 ∧ rw.1 = 0xFFFD then false
      else utf8ValidF fuel (s.drop rw.2)

/-- Models `utf8.Valid` on a byte sequence. -/
def utf8Valid (s : List Nat) : Bool := utf8ValidF s.length s

/-- Models `strconv.IsPrint`.  The Unicode range tables backing the real
function live in the Go standard library, outside this repository; this model
is exact on ASCII (printable means `U+0020`-`U+007E`) and, above ASCII, marks
everything printable except the C1 control block `U+0080`-`U+009F`.  Every
concrete input evaluated in this development is ASCII, where the model agrees
with Go; the universally quantified theorems below depend only on the ASCII
part (in particular on control characters such as the newline being
non-printable). -/
def goIsPrint (r : Nat) : Bool := decide ((0x20 ≤ r ∧ r < 0x7F) ∨ 0x9F < r)

/-- Models the `switch` at the tail of `strconv.appendEscapedRune` (reached
once the rune is known not to be the quote character, a backslash, or a
printable rune): named escapes for the seven C0 escapes, `\xHH` for other
C0 controls and DEL, and `\uXXXX` / `\UXXXXXXXX` otherwise, with invalid
runes replaced by `U+FFFD` first. -/
def escFallback (r : Nat) : List Nat :=
  if r = 7 then [92, 97]
  else if r = 8 then [92, 98]
  else if r = 12 then [92, 102]
  else if r = 10 then [92, 110]
  else if r = 13 then [92, 114]
  else if r = 9 then [92, 116]
  else if r = 11 then [92, 118]
  else if r < 0x20 ∨ r = 0x7F then [92, 120] ++ hexN 2 r
  else if validRune r = false then [92, 117] ++ hexN 4 0xFFFD
  else if r < 0x10000 then [92, 117] ++ hexN 4 r
  else [92, 85] ++ hexN 8 r

/-- Models `strconv.appendEscapedRune` with quote character `"` and
`graphicOnly = false` (the configuration used by `strconv.Quote` and
`strconv.QuoteToASCII`). -/
def appendEscapedRune (r : Nat) (asciiOnly : Bool) : List Nat :=
  if r = 34 ∨ r = 92 then [92, r]
  else if asciiOnly then
    if r < 0x80 ∧ goIsPrint r then [r] else escFallback r
  else if goIsPrint r then utf8Encode r
  else escFallback r

/-- Models the loop of `strconv.appendQuotedWith`: decode the next rune (any
byte below `0x80` is taken directly with width 1); an invalid byte is emitted
as `\xHH`; otherwise the rune is emitted through `appendEscapedRune`.
Fuel-based; the input length is always enough fuel. -/
def quoteBodyF (asciiOnly : Bool) : Nat → List Nat → List Nat
  | 0, _ => []
  | fuel + 1, s =>
    match s with
    | [] => []
    | c :: _ =>
      let rw := if c < 0x80 then (c, 1) else utf8Decode s
      if rw.2 = 1 ∧ rw.1 = 0xFFFD then
        [92, 120] ++ hexN 2 c ++ quoteBodyF asciiOnly fuel (s.drop 1)
      else
        appendEscapedRune rw.1 asciiOnly ++ quoteBodyF asciiOnly fuel (s.drop rw.2)

/-- Body (between the double quotes) of `strconv.Quote` / `QuoteToASCII`. -/
def quoteBody (asciiOnly : Bool) (s : List Nat) : List Nat :=
  quoteBodyF asciiOnly s.length s

/-- Models `strconv.Quote(string(b))` as bytes. -/
def goQuote (b : List Nat) : List Nat := [34] ++ quoteBody false b ++ [34]

/-- Models `strconv.QuoteToASCII(string(b))` as bytes. -/
def goQuoteToASCII (b : List Nat) : List Nat := [34] ++ quoteBody true b ++ [34]

/-- Models the loop of `strconv.CanBackquote`: scan rune by rune; reject the
byte-order mark among multi-byte runes, and reject invalid bytes, control
characters other than tab, the backquote, and DEL among width-1 units. -/
def canBackquoteF : Nat → List Nat → Bool
  | 0, _ => true
  | fuel + 1, s =>
    match s with
    | [] => true
    | _ :: _ =>
      let rw := utf8Decode s
      if 1 < rw.2 then
        if rw.1 = 0xFEFF then false else canBackquoteF fuel (s.drop rw.2)
      else
        if rw.1 = 0xFFFD then false
        else if (rw.1 < 0x20 ∧ rw.1 ≠ 9) ∨ rw.1 = 96 ∨ rw.1 = 0x7F then false
        else canBackquoteF fuel (s.drop rw.2)

/-- Models `strconv.CanBackquote(string(b))`. -/
def canBackquote (b : List Nat) : Bool := canBackquoteF b.length b

/-- Read `n` hex digit bytes, accumulating their value (the digit-reading
loop of the `x`/`u`/`U` cases of `strconv.unquoteChar`). -/
def readHex : Nat → List Nat → Nat → Option (Nat × List Nat)
  | 0, s, acc => some (acc, s)
  | _ + 1, [], _ => none
  | n + 1, c :: rest, acc =>
    match hexVal c with
    | none => none
    | some d => readHex n rest (16 * acc + d)

/-- Models `strconv.unquoteChar(s, '"')`: the decoded value, whether it is a
rune (to be re-encoded in UTF-8) or a plain byte, and the remaining input.
`none` models the `ErrSyntax` returns. -/
def unquoteChar (s : List Nat) : Option (Nat × Bool × List Nat) :=
  match s with
  | [] => none
  | c :: rest =>
    if c = 34 then none
    else if 0x80 ≤ c then
      let rw := utf8Decode s
      some (rw.1, true, s.drop rw.2)
    else if c ≠ 92 then some (c, false, rest)
    else
      match rest with
      | [] => none
      | e :: rest2 =>
        if e = 97 then some (7, false, rest2)
        else if e = 98 then some (8, false, rest2)
        else if e = 102 then some (12, false, rest2)
        else if e = 110 then some (10, false, rest2)
        else if e = 114 then some (13, false, rest2)
        else if e = 116 then some (9, false, rest2)
        else if e = 118 then some (11, false, rest2)
        else if e = 120 ∨ e = 117 ∨ e = 85 then
          let n := if e = 120 then 2 else if e = 117 then 4 else 8
          match readHex n rest2 0 with
          | none => none
          | some (v, rest3) =>
            if e = 120 then some (v, false, rest3)
            else if validRune v then some (v, true, rest3) else none
        else if 48 ≤ e ∧ e ≤ 55 then
          -- the octal case checks the remaining length and reads two digits
          if rest2.length < 2 then none
          else
            let d2 := rest2.headD 0
            let d3 := (rest2.drop 1).headD 0
            if (48 ≤ d2 ∧ d2 ≤ 55) ∧ (48 ≤ d3 ∧ d3 ≤ 55) then
              let v := (e - 48) * 64 + (d2 - 48) * 8 + (d3 - 48)
              if 255 < v then none else some (v, false, rest2.drop 2)
            else none
        else if e = 92 then some (92, false, rest2)
        else if e = 34 then some (34, false, rest2)
        else none

/-- The scanning loop of `strconv.unquote` for a double-quoted literal:
decode characters with `unquoteChar` until the closing quote, rejecting
unescaped newlines; returns the decoded bytes (runes re-encoded in UTF-8,
plain values appended as single bytes) and the input remaining after the
closing quote. -/
def unqLoopF : Nat → List Nat → Option (List Nat × List Nat)
  | 0, _ => none
  | fuel + 1, s =>
    match s with
    | [] => none
    | c :: rest =>
      if c = 34 then some ([], rest)
      else if c = 10 then none
      else
        match unquoteChar s with
        | none => none
        | some (v, mb, tail) =>
          match unqLoopF fuel tail with
          | none => none
          | some (out, rem) => some ((if mb then utf8Encode v else [v % 256]) ++ out, rem)

/-- Models `strconv.Unquote` restricted to the double-quoted form: the
literal must start with `"`, parse to its closing quote, and leave nothing
behind.  This is the Go string-literal unescaping rule the specification
refers to. -/
def goUnquote (s : List Nat) : Option (List Nat) :=
  match s with
  | 34 :: rest =>
    match unqLoopF rest.length rest with
    | some (out, []) => some out
    | _ => none
  | _ => none

/-- The double-quoted scanning loop run with its canonical fuel (the length
of the input, which every step strictly decreases). -/
def unqRun (s : List Nat) : Option (List Nat × List Nat) := unqLoopF s.length s

/-- Models `encoding/json`'s `htmlSafeSet`: ASCII bytes that pass through a
JSON string unescaped when HTML escaping is on (all of `0x20`-`0x7F` except
`"`, `\`, `<`, `>`, `&`). -/
def htmlSafe (c : Nat) : Bool :=
  decide (0x20 ≤ c ∧ c ≠ 34 ∧ c ≠ 92 ∧ c ≠ 60 ∧ c ≠ 62 ∧ c ≠ 38)

/-- Models the loop of `encoding/json.appendString` with `escapeHTML = true`
(the configuration of `json.Marshal`): safe ASCII bytes pass through, other
ASCII bytes are escaped (`\\`, `\"`, `\b`, `\f`, `\n`, `\r`, `\t`, else
`\u00XX`), each invalid UTF-8 byte becomes the six-character escape text
for the replacement rune, the line and paragraph separators (code points
0x2028 and 0x2029) become their four-hex-digit escapes, and all other valid
runes pass through unchanged.  Fuel-based; the input length is enough fuel. -/
def jsonBodyF : Nat → List Nat → List Nat
  | 0, _ => []
  | fuel + 1, s =>
    match s with
    | [] => []
    | c :: rest =>
      if c < 0x80 then
        if htmlSafe c then c :: jsonBodyF fuel rest
        else
          (if c = 92 then [92, 92]
           else if c = 34 then [92, 34]
           else if c = 8 then [92, 98]
           else if c = 12 then [92, 102]
           else if c = 10 then [92, 110]
           else if c = 13 then [92, 114]
           else if c = 9 then [92, 116]
           else [92, 117, 48, 48] ++ hexN 2 c) ++ jsonBodyF fuel rest
      else
        let rw := utf8Decode s
        if rw.1 = 0xFFFD ∧ rw.2 = 1 then
          [92, 117, 102, 102, 102, 100] ++ jsonBodyF fuel rest
        else if rw.1 = 0x2028 ∨ rw.1 = 0x2029 then
          [92, 117, 50, 48, 50, digitByte (rw.1 % 16)] ++ jsonBodyF fuel (s.drop rw.2)
        else
          s.take rw.2 ++ jsonBodyF fuel (s.drop rw.2)

/-- Body (between the double quotes) of the JSON encoding of `string(b)`. -/
def jsonBody (b : List Nat) : List Nat := jsonBodyF b.length b

/-- Models `json.Marshal(string(b))`.  Marshalling a Go string value cannot
fail: `encoding/json` coerces invalid UTF-8 to the replacement character, so
the encoder for strings has no error path; hence the result is a plain byte
sequence. -/
def jsonMarshalString (b : List Nat) : List Nat := [34] ++ jsonBody b ++ [34]

/-- The failure `write` can report through `log.Fatalf`: an unrecognized
format code.  At every reachable call site the dispatched mode string equals
`flag.Arg(0)`, the CLI mode token, which is exactly what the diagnostic
`"invalid format code %q"` prints. -/
inductive WriteErr where
  | unknownMode (code : String)
deriving DecidableEq

instance {ε α : Type} [DecidableEq ε] [DecidableEq α] : DecidableEq (Except ε α)
  | .ok a, .ok b =>
    if h : a = b then .isTrue (by rw [h])
    else .isFalse (by intro he; cases he; exact h rfl)
  | .ok _, .error _ => .isFalse (by intro he; cases he)
  | .error _, .ok _ => .isFalse (by intro he; cases he)
  | .error a, .error b =>
    if h : a = b then .isTrue (by rw [h])
    else .isFalse (by intro he; cases he; exact h rfl)

/-- Models `log.Fatal`'s effect on the process: a formatter error exits the
process with status 1, success leaves it at 0. -/
def exitCode {α : Type} : Except WriteErr α → Nat
  | .ok _ => 0
  | .error _ => 1

/-- One item of the `x` mode loop: `\x` plus the hex of the byte, with a `0`
inserted when the hex is a single digit. -/
def xItem (c : Nat) : List Nat :=
  [92, 120] ++
    (let h := formatUint c 16
     (if h.length = 1 then [48] else []) ++ h)

/-- The `x` mode loop over the bytes. -/
def xBody : List Nat → List Nat
  | [] => []
  | c :: rest => xItem c ++ xBody rest

/-- One item of the octet loop of modes `b`/`0b`/`ba`/`0ba`: `0x` plus the
hex of the byte, zero-padded when `pad` is set and the hex is short. -/
def octetItem (pad : Bool) (c : Nat) : List Nat :=
  [48, 120] ++
    (let h := formatUint c 16
     (if pad ∧ h.length < 2 then [48] else []) ++ h)

/-- The octet loop of modes `b`/`0b`/`ba`/`0ba`, with its `seenFirst` flag
inserting `", "` before every item but the first. -/
def octetLoop (pad : Bool) : Bool → List Nat → List Nat
  | _, [] => []
  | seenFirst, c :: rest =>
    (if seenFirst then [44, 32] else []) ++ octetItem pad c ++ octetLoop pad true rest

/-- The text the `b` case appends: `[` ++ lenstr ++ `]byte{` ++ octets ++ `}`. -/
def octetsOut (b : List Nat) (lenstr : List Nat) (pad : Bool) : List Nat :=
  [91] ++ lenstr ++ ascii "]byte\x7b" ++ octetLoop pad false b ++ [125]

/-- The `write` function of `src/unnamed/part_000` (the current revision).
The mutable locals `lenstr`, `pad`, `bsmode` and the `goto loop` re-dispatch
are modelled by explicit parameters and recursion; a `fallthrough` is
modelled by inlining the body of the next case with the updated locals.  The
recursion is fuelled: every `goto` chain of the source has length at most
two, so the fuel of the public wrapper `write` below is never exhausted (the
fuel-zero case is unreachable; see `writeF_fuel` establishing that fuel 3
already behaves identically). -/
def writeF : Nat → List Nat → String → List Nat → Bool → String → Except WriteErr (List Nat)
  | 0, _, mode, _, _, _ => .error (.unknownMode mode)
  | fuel + 1, b, mode, lenstr, pad, bsmode =>
    if mode = "" ∨ mode = "q" then .ok (goQuote b)
    else if mode = "qa" then .ok (goQuoteToASCII b)
    else if mode = "ra" then
      -- bsmode = "qa", then fall through into the "r" body
      if canBackquote b = false then writeF fuel b "qa" lenstr pad "qa"
      else .ok ([96] ++ b ++ [96])
    else if mode = "r" then
      if canBackquote b = false then writeF fuel b bsmode lenstr pad bsmode
      else .ok ([96] ++ b ++ [96])
    else if mode = "x" then .ok ([34] ++ xBody b ++ [34])
    else if mode = "bsa" then
      -- bsmode = "qa", then fall through into the "bs" body;
      -- the inner write is a fresh invocation with freshly initialized locals
      match writeF fuel b "qa" [] false "q" with
      | .ok inner => .ok (ascii "[]byte(" ++ inner ++ [41])
      | .error e => .error e
    else if mode = "bs" then
      match writeF fuel b bsmode [] false "q" with
      | .ok inner => .ok (ascii "[]byte(" ++ inner ++ [41])
      | .error e => .error e
    else if mode = "0ba" then
      -- pad = true, then fall through into the "ba" body, whose goto lands on "b"
      writeF fuel b "b" (formatUint b.length 10) true bsmode
    else if mode = "ba" then
      writeF fuel b "b" (formatUint b.length 10) pad bsmode
    else if mode = "0b" then
      -- pad = true, then fall through into the "b" body
      .ok (octetsOut b lenstr true)
    else if mode = "b" then .ok (octetsOut b lenstr pad)
    else if mode = "j" then
      -- json.Marshal of a string value never returns an error, so the
      -- log.Fatalf branch guarding it is unreachable
      .ok (jsonMarshalString b)
    else .error (.unknownMode mode)

/-- `write(buf, b, mode)` of `src/unnamed/part_000`, with the locals at their
declared initial values (`lenstr = ""`, `pad = false`, `bsmode = "q"`). -/
def write (b : List Nat) (mode : String) : Except WriteErr (List Nat) :=
  writeF 4 b mode [] false "q"

/-- The `write` function of `src/goquote.go` (the older revision): no `j`
mode, and the zero-padded array mode reaches the octet loop through the chain
`"0ba"` -> `"ba"` -> `"b"` of two `goto`s instead of a `fallthrough`. -/
def writeOldF : Nat → List Nat → String → List Nat → Bool → String → Except WriteErr (List Nat)
  | 0, _, mode, _, _, _ => .error (.unknownMode mode)
  | fuel + 1, b, mode, lenstr, pad, bsmode =>
    if mode = "ra" then
      if canBackquote b = false then writeOldF fuel b "qa" lenstr pad "qa"
      else .ok ([96] ++ b ++ [96])
    else if mode = "r" then
      if canBackquote b = false then writeOldF fuel b bsmode lenstr pad bsmode
      else .ok ([96] ++ b ++ [96])
    else if mode = "" ∨ mode = "q" then .ok (goQuote b)
    else if mode = "qa" then .ok (goQuoteToASCII b)
    else if mode = "x" then .ok ([34] ++ xBody b ++ [34])
    else if mode = "bsa" then
      match writeOldF fuel b "qa" [] false "q" with
      | .ok inner => .ok (ascii "[]byte(" ++ inner ++ [41])
      | .error e => .error e
    else if mode = "bs" then
      match writeOldF fuel b bsmode [] false "q" with
      | .ok inner => .ok (ascii "[]byte(" ++ inner ++ [41])
      | .error e => .error e
    else if mode = "ba" then
      writeOldF fuel b "b" (formatUint b.length 10) pad bsmode
    else if mode = "0ba" then
      writeOldF fuel b "ba" lenstr true bsmode
    else if mode = "0b" then .ok (octetsOut b lenstr true)
    else if mode = "b" then .ok (octetsOut b lenstr pad)
    else .error (.unknownMode mode)

/-- `write(buf, b, mode)` of `src/goquote.go`. -/
def writeOld (b : List Nat) (mode : String) : Except WriteErr (List Nat) :=
  writeOldF 4 b mode [] false "q"

/-- The modes recognized by the current revision. -/
def definedModes : List String :=
  ["", "q", "qa", "r", "ra", "x", "bs", "bsa", "b", "0b", "ba", "0ba", "j"]

/-- The modes recognized by both revisions. -/
def sharedModes : List String :=
  ["", "q", "qa", "r", "ra", "x", "bs", "bsa", "b", "0b", "ba", "0ba"]

/-- Every element of the sequence is a byte. -/
def allBytes (b : List Nat) : Prop := ∀ c ∈ b, c < 256

instance (b : List Nat) : Decidable (allBytes b) := by
  unfold allBytes; infer_instance

/-! ## Digit and numeral lemmas -/

theorem hexVal_digitByte (d : Nat) (h : d < 16) : hexVal (digitByte d) = some d := by
  unfold hexVal digitByte
  split_ifs <;> first
    | (congr 1; omega)
    | omega

theorem formatUint_lt (n base : Nat) (h : n < base) : formatUint n base = [digitByte n] := by
  unfold formatUint formatUintF
  simp [h]

theorem formatUint_two (c : Nat) (h16 : 16 ≤ c) (h : c < 256) :
    formatUint c 16 = [digitByte (c / 16), digitByte (c % 16)] := by
  obtain ⟨k, rfl⟩ : ∃ k, c = k + 1 := ⟨c - 1, by omega⟩
  unfold formatUint formatUintF
  rw [if_neg (by omega)]
  obtain ⟨m, hm⟩ : ∃ m, (k + 1) / 16 = m := ⟨_, rfl⟩
  unfold formatUintF
  rw [hm, if_pos (by omega)]
  rfl

theorem decValue_append (xs : List Nat) (d : Nat) :
    decValue (xs ++ [d]) = 10 * decValue xs + (d - 48) := by
  unfold decValue
  rw [List.foldl_append]
  rfl

theorem decValue_formatUintF (fuel : Nat) :
    ∀ n, n < fuel → decValue (formatUintF 10 fuel n) = n := by
  induction fuel with
  | zero => intro n h; omega
  | succ f ih =>
    intro n h
    unfold formatUintF
    by_cases h10 : n < 10
    · rw [if_pos h10]
      unfold decValue digitByte
      rw [if_pos h10]
      simp only [List.foldl_cons, List.foldl_nil]
      omega
    · rw [if_neg h10, decValue_append, ih (n / 10) (by omega)]
      unfold digitByte
      rw [if_pos (by omega)]
      omega

theorem decValue_formatUint (n : Nat) : decValue (formatUint n 10) = n :=
  decValue_formatUintF (n + 1) n (by omega)

/-! ## UTF-8 lemmas -/

theorem utf8Decode_size_pos (s : List Nat) (h : s ≠ []) : 1 ≤ (utf8Decode s).2 := by
  match s with
  | [] => exact absurd rfl h
  | c0 :: rest =>
    unfold utf8Decode
    repeat' split
    all_goals simp_all

theorem utf8Decode_size_le (s : List Nat) : (utf8Decode s).2 ≤ s.length := by
  match s with
  | [] => simp [utf8Decode]
  | c0 :: rest =>
    unfold utf8Decode
    repeat' split
    all_goals simp_all
    all_goals omega

/-- Soundness of the decoder: on nonempty input it reports either the error
pair `(0xFFFD, 1)` or a valid rune whose encoding is exactly the consumed
prefix of the input. -/
theorem utf8Decode_spec (s : List Nat) (h : s ≠ []) :
    utf8Decode s = (0xFFFD, 1) ∨
    (utf8Encode (utf8Decode s).1 = s.take (utf8Decode s).2 ∧
     (utf8Encode (utf8Decode s).1).length = (utf8Decode s).2 ∧
     validRune (utf8Decode s).1 = true) := by
  match s with
  | [] => exact absurd rfl h
  | c0 :: rest =>
    by_cases h1 : c0 < 0x80
    · right
      simp only [utf8Decode, if_pos h1]
      refine ⟨?_, by simp [utf8Encode, h1], by unfold validRune; simp; omega⟩
      simp [utf8Encode, h1]
    · by_cases h2 : 0xC2 ≤ c0 ∧ c0 ≤ 0xDF
      · match rest with
        | [] => left; simp [utf8Decode, h1, h2]
        | c1 :: r2 =>
          by_cases h3 : 0x80 ≤ c1 ∧ c1 ≤ 0xBF
          · right
            simp only [utf8Decode, if_neg h1, if_pos h2, if_pos h3]
            refine ⟨?_, ?_, ?_⟩
            · unfold utf8Encode
              have d1 : ¬((c0 - 0xC0) * 64 + (c1 - 0x80) < 0x80) := by omega
              have d2 : (c0 - 0xC0) * 64 + (c1 - 0x80) < 0x800 := by omega
              rw [if_neg d1, if_pos d2]
              simp only [List.take_succ_cons, List.take_zero, List.cons.injEq]
              refine ⟨by omega, by omega, trivial⟩
            · unfold utf8Encode
              have d1 : ¬((c0 - 0xC0) * 64 + (c1 - 0x80) < 0x80) := by omega
              have d2 : (c0 - 0xC0) * 64 + (c1 - 0x80) < 0x800 := by omega
              rw [if_neg d1, if_pos d2]
              rfl
            · unfold validRune; simp; omega
          · left; simp [utf8Decode, h1, h2, h3]
      · by_cases h4 : 0xE0 ≤ c0 ∧ c0 ≤ 0xEF
        · match rest with
          | [] => left; simp [utf8Decode, h1, h2, h4]
          | [c1] => left; simp [utf8Decode, h1, h2, h4]
          | c1 :: c2 :: r3 =>
            by_cases h5 : ((if c0 = 0xE0 then 0xA0 else 0x80) ≤ c1 ∧
                c1 ≤ (if c0 = 0xED then 0x9F else 0xBF)) ∧ (0x80 ≤ c2 ∧ c2 ≤ 0xBF)
            · right
              simp only [utf8Decode, if_neg h1, if_neg h2, if_pos h4, if_pos h5]
              split_ifs at h5 with hE0 hED hED
              all_goals refine ⟨?_, ?_, ?_⟩
              all_goals first
                | (unfold validRune; simp; omega)
                | (unfold utf8Encode
                   rw [if_neg (show ¬_ from by omega), if_neg (show ¬_ from by omega),
                     if_neg (show ¬_ from by omega), if_pos (show _ from by omega)]
                   first
                     | rfl
                     | (simp only [List.take_succ_cons, List.take_zero, List.cons.injEq]
                        refine ⟨by omega, by omega, by omega, trivial⟩))
            · left; simp [utf8Decode, h1, h2, h4, h5]
        · by_cases h6 : 0xF0 ≤ c0 ∧ c0 ≤ 0xF4
          · match rest with
            | [] => left; simp [utf8Decode, h1, h2, h4, h6]
            | [c1] => left; simp [utf8Decode, h1, h2, h4, h6]
            | [c1, c2] => left; simp [utf8Decode, h1, h2, h4, h6]
            | c1 :: c2 :: c3 :: r4 =>
              by_cases h7 : ((if c0 = 0xF0 then 0x90 else 0x80) ≤ c1 ∧
                  c1 ≤ (if c0 = 0xF4 then 0x8F else 0xBF)) ∧
                  (0x80 ≤ c2 ∧ c2 ≤ 0xBF) ∧ (0x80 ≤ c3 ∧ c3 ≤ 0xBF)
              · right
                simp only [utf8Decode, if_neg h1, if_neg h2, if_neg h4, if_pos h6,
                  if_pos h7]
                split_ifs at h7 with hF0 hF4 hF4
                all_goals refine ⟨?_, ?_, ?_⟩
                all_goals first
                  | (unfold validRune; simp; omega)
                  | (unfold utf8Encode
                     rw [if_neg (show ¬_ from by omega), if_neg (show ¬_ from by omega),
                       if_neg (show ¬_ from by omega), if_neg (show ¬_ from by omega)]
                     first
                       | rfl
                       | (simp only [List.take_succ_cons, List.take_zero, List.cons.injEq]
                          refine ⟨by omega, by omega, by omega, by omega, trivial⟩))
              · left; simp [utf8Decode, h1, h2, h4, h6, h7]
          · left; simp [utf8Decode, h1, h2, h4, h6]

/-- Completeness of the decoder on encoder output: decoding a validly encoded
rune followed by anything recovers the rune and consumes exactly its
encoding. -/
theorem utf8Decode_encode (r : Nat) (hv : validRune r = true) (t : List Nat) :
    utf8Decode (utf8Encode r ++ t) = (r, (utf8Encode r).length) := by
  have hv' : r < 0xD800 ∨ (0xDFFF < r ∧ r ≤ 0x10FFFF) := by
    unfold validRune at hv; exact of_decide_eq_true hv
  by_cases h1 : r < 0x80
  · unfold utf8Encode
    rw [if_pos h1]
    simp only [List.cons_append, List.nil_append, utf8Decode]
    rw [if_pos h1]
    rfl
  · by_cases h2 : r < 0x800
    · unfold utf8Encode
      rw [if_neg h1, if_pos h2]
      simp only [List.cons_append, List.nil_append, utf8Decode]
      have c1 : ¬(0xC0 + r / 64 < 0x80) := by omega
      have c2 : 0xC2 ≤ 0xC0 + r / 64 ∧ 0xC0 + r / 64 ≤ 0xDF := by omega
      have c3 : 0x80 ≤ 0x80 + r % 64 ∧ 0x80 + r % 64 ≤ 0xBF := by omega
      rw [if_neg c1, if_pos c2, if_pos c3]
      simp only [List.length_cons, List.length_nil, Prod.mk.injEq]
      exact ⟨by omega, trivial⟩
    · by_cases h3 : r < 0x10000
      · unfold utf8Encode
        rw [if_neg h1, if_neg h2, if_neg (by omega), if_pos h3]
        simp only [List.cons_append, List.nil_append, utf8Decode]
        have c1 : ¬(0xE0 + r / 4096 < 0x80) := by omega
        have c2 : ¬(0xC2 ≤ 0xE0 + r / 4096 ∧ 0xE0 + r / 4096 ≤ 0xDF) := by omega
        have c3 : 0xE0 ≤ 0xE0 + r / 4096 ∧ 0xE0 + r / 4096 ≤ 0xEF := by omega
        rw [if_neg c1, if_neg c2, if_pos c3, if_pos ?side]
        case side =>
          refine ⟨⟨?_, ?_⟩, by omega, by omega⟩
          · split_ifs with hc <;> omega
          · split_ifs with hc <;> omega
        simp only [List.length_cons, List.length_nil, Prod.mk.injEq]
        exact ⟨by omega, trivial⟩
      · unfold utf8Encode
        rw [if_neg h1, if_neg h2, if_neg (by omega), if_neg (by omega)]
        simp only [List.cons_append, List.nil_append, utf8Decode]
        have c1 : ¬(0xF0 + r / 0x40000 < 0x80) := by omega
        have c2 : ¬(0xC2 ≤ 0xF0 + r / 0x40000 ∧ 0xF0 + r / 0x40000 ≤ 0xDF) := by omega
        have c3 : ¬(0xE0 ≤ 0xF0 + r / 0x40000 ∧ 0xF0 + r / 0x40000 ≤ 0xEF) := by omega
        have c4 : 0xF0 ≤ 0xF0 + r / 0x40000 ∧ 0xF0 + r / 0x40000 ≤ 0xF4 := by omega
        rw [if_neg c1, if_neg c2, if_neg c3, if_pos c4, if_pos ?side2]
        case side2 =>
          refine ⟨⟨?_, ?_⟩, by omega, by omega⟩
          · split_ifs with hc <;> omega
          · split_ifs with hc <;> omega
        simp only [List.length_cons, List.length_nil, Prod.mk.injEq]
        exact ⟨by omega, trivial⟩

/-- Every byte of a multi-byte encoding is at least `0x80`. -/
theorem utf8Encode_ge (r : Nat) (h : 0x80 ≤ r) : ∀ x ∈ utf8Encode r, 0x80 ≤ x := by
  unfold utf8Encode
  split_ifs <;> intro x hx <;> simp at hx <;> omega

/-- Every byte of an encoding is a byte. -/
theorem utf8Encode_lt (r : Nat) : ∀ x ∈ utf8Encode r, x < 256 := by
  unfold utf8Encode
  split_ifs <;> intro x hx <;> simp at hx <;> omega

theorem utf8Encode_ne_nil (r : Nat) : utf8Encode r ≠ [] := by
  unfold utf8Encode
  split_ifs <;> simp

/-! ## Fuel stability: with at least as much fuel as input length, the fuelled
loops do not depend on the exact fuel value. -/


theorem readHex_drop (n : Nat) :
    ∀ (s : List Nat) (acc v : Nat) (r : List Nat),
      readHex n s acc = some (v, r) → r.length + n = s.length := by
  induction n with
  | zero =>
    intro s acc v r h
    unfold readHex at h
    simp at h
    obtain ⟨-, rfl⟩ := h
    simp
  | succ n ih =>
    intro s acc v r h
    match s with
    | [] => simp [readHex] at h
    | c :: rest =>
      unfold readHex at h
      match hx : hexVal c with
      | none => rw [hx] at h; simp at h
      | some d =>
        rw [hx] at h
        have := ih rest (16 * acc + d) v r h
        simp
        omega

theorem unquoteChar_shrink (s : List Nat) (v : Nat) (mb : Bool) (tail : List Nat)
    (h : unquoteChar s = some (v, mb, tail)) : tail.length < s.length := by
  match s with
  | [] => simp [unquoteChar] at h
  | [c] =>
    simp only [unquoteChar] at h
    by_cases hq : c = 34
    · rw [if_pos hq] at h; simp at h
    · rw [if_neg hq] at h
      by_cases hm : 0x80 ≤ c
      · rw [if_pos hm] at h
        simp only [Option.some.injEq, Prod.mk.injEq] at h
        obtain ⟨-, -, ht⟩ := h
        have h1 := utf8Decode_size_pos [c] (by simp)
        subst ht
        simp only [List.length_drop, List.length_cons, List.length_nil]
        omega
      · rw [if_neg hm] at h
        by_cases hb : c ≠ 92
        · rw [if_pos hb] at h
          simp only [Option.some.injEq, Prod.mk.injEq] at h
          obtain ⟨-, -, ht⟩ := h
          subst ht
          simp
        · rw [if_neg hb] at h
          simp at h
  | c :: e :: rest2 =>
    simp only [unquoteChar] at h
    by_cases hq : c = 34
    · rw [if_pos hq] at h; simp at h
    · rw [if_neg hq] at h
      by_cases hm : 0x80 ≤ c
      · rw [if_pos hm] at h
        simp only [Option.some.injEq, Prod.mk.injEq] at h
        obtain ⟨-, -, ht⟩ := h
        have h1 := utf8Decode_size_pos (c :: e :: rest2) (by simp)
        subst ht
        simp only [List.length_drop, List.length_cons]
        omega
      · rw [if_neg hm] at h
        by_cases hb : c ≠ 92
        · rw [if_pos hb] at h
          simp only [Option.some.injEq, Prod.mk.injEq] at h
          obtain ⟨-, -, ht⟩ := h
          subst ht
          simp
        · rw [if_neg hb] at h
          by_cases h97 : e = 97
          · rw [if_pos h97] at h
            simp only [Option.some.injEq, Prod.mk.injEq] at h
            obtain ⟨-, -, ht⟩ := h; subst ht; simp only [List.length_cons]; omega
          · rw [if_neg h97] at h
            by_cases h98 : e = 98
            · rw [if_pos h98] at h
              simp only [Option.some.injEq, Prod.mk.injEq] at h
              obtain ⟨-, -, ht⟩ := h; subst ht; simp only [List.length_cons]; omega
            · rw [if_neg h98] at h
              by_cases h102 : e = 102
              · rw [if_pos h102] at h
                simp only [Option.some.injEq, Prod.mk.injEq] at h
                obtain ⟨-, -, ht⟩ := h; subst ht; simp only [List.length_cons]; omega
              · rw [if_neg h102] at h
                by_cases h110 : e = 110
                · rw [if_pos h110] at h
                  simp only [Option.some.injEq, Prod.mk.injEq] at h
                  obtain ⟨-, -, ht⟩ := h; subst ht; simp only [List.length_cons]; omega
                · rw [if_neg h110] at h
                  by_cases h114 : e = 114
                  · rw [if_pos h114] at h
                    simp only [Option.some.injEq, Prod.mk.injEq] at h
                    obtain ⟨-, -, ht⟩ := h; subst ht; simp only [List.length_cons]; omega
                  · rw [if_neg h114] at h
                    by_cases h116 : e = 116
                    · rw [if_pos h116] at h
                      simp only [Option.some.injEq, Prod.mk.injEq] at h
                      obtain ⟨-, -, ht⟩ := h; subst ht; simp only [List.length_cons]; omega
                    · rw [if_neg h116] at h
                      by_cases h118 : e = 118
                      · rw [if_pos h118] at h
                        simp only [Option.some.injEq, Prod.mk.injEq] at h
                        obtain ⟨-, -, ht⟩ := h; subst ht; simp only [List.length_cons]; omega
                      · rw [if_neg h118] at h
                        by_cases hhex : e = 120 ∨ e = 117 ∨ e = 85
                        · rw [if_pos hhex] at h
                          split at h
                          · simp at h
                          · rename_i v2 rest3 hr
                            have hlen := readHex_drop _ _ _ _ _ hr
                            by_cases h120 : e = 120
                            · rw [if_pos h120] at h
                              simp only [Option.some.injEq, Prod.mk.injEq] at h
                              obtain ⟨-, -, ht⟩ := h; subst ht
                              simp only [List.length_cons]; omega
                            · rw [if_neg h120] at h
                              by_cases hvr : validRune v2 = true
                              · rw [if_pos hvr] at h
                                simp only [Option.some.injEq, Prod.mk.injEq] at h
                                obtain ⟨-, -, ht⟩ := h; subst ht
                                simp only [List.length_cons]; omega
                              · rw [if_neg hvr] at h; simp at h
                        · rw [if_neg hhex] at h
                          by_cases hoct : 48 ≤ e ∧ e ≤ 55
                          · rw [if_pos hoct] at h
                            by_cases hl2 : rest2.length < 2
                            · rw [if_pos hl2] at h; simp at h
                            · rw [if_neg hl2] at h
                              by_cases hd : (48 ≤ rest2.headD 0 ∧ rest2.headD 0 ≤ 55) ∧
                                  (48 ≤ (rest2.drop 1).headD 0 ∧ (rest2.drop 1).headD 0 ≤ 55)
                              · rw [if_pos hd] at h
                                by_cases hv255 : 255 < (e - 48) * 64 +
                                    (rest2.headD 0 - 48) * 8 + ((rest2.drop 1).headD 0 - 48)
                                · rw [if_pos hv255] at h; simp at h
                                · rw [if_neg hv255] at h
                                  simp only [Option.some.injEq, Prod.mk.injEq] at h
                                  obtain ⟨-, -, ht⟩ := h; subst ht
                                  simp only [List.length_drop, List.length_cons]
                                  omega
                              · rw [if_neg hd] at h; simp at h
                          · rw [if_neg hoct] at h
                            by_cases h92 : e = 92
                            · rw [if_pos h92] at h
                              simp only [Option.some.injEq, Prod.mk.injEq] at h
                              obtain ⟨-, -, ht⟩ := h; subst ht
                              simp only [List.length_cons]; omega
                            · rw [if_neg h92] at h
                              by_cases h34 : e = 34
                              · rw [if_pos h34] at h
                                simp only [Option.some.injEq, Prod.mk.injEq] at h
                                obtain ⟨-, -, ht⟩ := h; subst ht
                                simp only [List.length_cons]; omega
                              · rw [if_neg h34] at h
                                simp at h


theorem quoteBodyF_stable (a : Bool) (n : Nat) :
    ∀ (m : Nat) (s : List Nat), s.length ≤ n → s.length ≤ m →
      quoteBodyF a n s = quoteBodyF a m s := by
  induction n with
  | zero =>
    intro m s h1 h2
    have hs : s = [] := List.eq_nil_of_length_eq_zero (by omega)
    subst hs
    cases m <;> rfl
  | succ n ih =>
    intro m s h1 h2
    match s with
    | [] => cases m <;> rfl
    | c :: rest =>
      match m with
      | 0 => simp at h2
      | m + 1 =>
        simp only [quoteBodyF]
        have hd := utf8Decode_size_pos (c :: rest) (by simp)
        simp only [List.length_cons] at h1 h2
        split_ifs
        all_goals first
          | rfl
          | (congr 1 <;>
              first
                | rfl
                | (apply ih <;> (try simp only [List.length_drop, List.length_cons]) <;>
                    omega))

theorem quoteBody_fuel (a : Bool) (n : Nat) (s : List Nat) (h : s.length ≤ n) :
    quoteBodyF a n s = quoteBody a s :=
  quoteBodyF_stable a n s.length s h le_rfl

theorem quoteBody_cons (a : Bool) (c : Nat) (rest : List Nat) :
    quoteBody a (c :: rest) =
      (if (if c < 0x80 then (c, 1) else utf8Decode (c :: rest)).2 = 1 ∧
          (if c < 0x80 then (c, 1) else utf8Decode (c :: rest)).1 = 0xFFFD then
        [92, 120] ++ hexN 2 c ++ quoteBody a ((c :: rest).drop 1)
      else
        appendEscapedRune (if c < 0x80 then (c, 1) else utf8Decode (c :: rest)).1 a ++
          quoteBody a ((c :: rest).drop
            (if c < 0x80 then (c, 1) else utf8Decode (c :: rest)).2)) := by
  have hd := utf8Decode_size_pos (c :: rest) (by simp)
  show quoteBodyF a (c :: rest).length (c :: rest) = _
  simp only [List.length_cons, quoteBodyF]
  split_ifs
  all_goals congr 1
  all_goals first
    | rfl
    | (apply quoteBody_fuel <;> (try simp only [List.length_drop, List.length_cons]) <;>
        omega)

theorem canBackquoteF_stable (n : Nat) :
    ∀ (m : Nat) (s : List Nat), s.length ≤ n → s.length ≤ m →
      canBackquoteF n s = canBackquoteF m s := by
  induction n with
  | zero =>
    intro m s h1 h2
    have hs : s = [] := List.eq_nil_of_length_eq_zero (by omega)
    subst hs
    cases m <;> rfl
  | succ n ih =>
    intro m s h1 h2
    match s with
    | [] => cases m <;> rfl
    | c :: rest =>
      match m with
      | 0 => simp at h2
      | m + 1 =>
        simp only [canBackquoteF]
        have hd := utf8Decode_size_pos (c :: rest) (by simp)
        simp only [List.length_cons] at h1 h2
        split_ifs
        all_goals first
          | rfl
          | (apply ih <;> (try simp only [List.length_drop, List.length_cons]) <;> omega)

theorem canBackquote_fuel (n : Nat) (s : List Nat) (h : s.length ≤ n) :
    canBackquoteF n s = canBackquote s :=
  canBackquoteF_stable n s.length s h le_rfl

theorem canBackquote_cons (c : Nat) (rest : List Nat) :
    canBackquote (c :: rest) =
      (if 1 < (utf8Decode (c :: rest)).2 then
        if (utf8Decode (c :: rest)).1 = 0xFEFF then false
        else canBackquote ((c :: rest).drop (utf8Decode (c :: rest)).2)
      else
        if (utf8Decode (c :: rest)).1 = 0xFFFD then false
        else if ((utf8Decode (c :: rest)).1 < 0x20 ∧ (utf8Decode (c :: rest)).1 ≠ 9) ∨
            (utf8Decode (c :: rest)).1 = 96 ∨ (utf8Decode (c :: rest)).1 = 0x7F then false
        else canBackquote ((c :: rest).drop (utf8Decode (c :: rest)).2)) := by
  have hd := utf8Decode_size_pos (c :: rest) (by simp)
  show canBackquoteF (c :: rest).length (c :: rest) = _
  simp only [List.length_cons, canBackquoteF]
  split_ifs
  all_goals first
    | rfl
    | (apply canBackquote_fuel <;> (try simp only [List.length_drop, List.length_cons]) <;>
        omega)

theorem utf8ValidF_stable (n : Nat) :
    ∀ (m : Nat) (s : List Nat), s.length ≤ n → s.length ≤ m →
      utf8ValidF n s = utf8ValidF m s := by
  induction n with
  | zero =>
    intro m s h1 h2
    have hs : s = [] := List.eq_nil_of_length_eq_zero (by omega)
    subst hs
    cases m <;> rfl
  | succ n ih =>
    intro m s h1 h2
    match s with
    | [] => cases m <;> rfl
    | c :: rest =>
      match m with
      | 0 => simp at h2
      | m + 1 =>
        simp only [utf8ValidF]
        have hd := utf8Decode_size_pos (c :: rest) (by simp)
        simp only [List.length_cons] at h1 h2
        split_ifs
        all_goals first
          | rfl
          | (apply ih <;> (try simp only [List.length_drop, List.length_cons]) <;> omega)

theorem utf8Valid_fuel (n : Nat) (s : List Nat) (h : s.length ≤ n) :
    utf8ValidF n s = utf8Valid s :=
  utf8ValidF_stable n s.length s h le_rfl

theorem jsonBodyF_stable (n : Nat) :
    ∀ (m : Nat) (s : List Nat), s.length ≤ n → s.length ≤ m →
      jsonBodyF n s = jsonBodyF m s := by
  induction n with
  | zero =>
    intro m s h1 h2
    have hs : s = [] := List.eq_nil_of_length_eq_zero (by omega)
    subst hs
    cases m <;> rfl
  | succ n ih =>
    intro m s h1 h2
    match s with
    | [] => cases m <;> rfl
    | c :: rest =>
      match m with
      | 0 => simp at h2
      | m + 1 =>
        simp only [jsonBodyF]
        have hd := utf8Decode_size_pos (c :: rest) (by simp)
        simp only [List.length_cons] at h1 h2
        split_ifs
        all_goals first
          | rfl
          | (congr 1 <;>
              first
                | rfl
                | (apply ih <;> (try simp only [List.length_drop, List.length_cons]) <;>
                    omega))

theorem jsonBody_fuel (n : Nat) (s : List Nat) (h : s.length ≤ n) :
    jsonBodyF n s = jsonBody s :=
  jsonBodyF_stable n s.length s h le_rfl

theorem jsonBody_cons (c : Nat) (rest : List Nat) :
    jsonBody (c :: rest) =
      (if c < 0x80 then
        if htmlSafe c then c :: jsonBody rest
        else
          (if c = 92 then [92, 92]
           else if c = 34 then [92, 34]
           else if c = 8 then [92, 98]
           else if c = 12 then [92, 102]
           else if c = 10 then [92, 110]
           else if c = 13 then [92, 114]
           else if c = 9 then [92, 116]
           else [92, 117, 48, 48] ++ hexN 2 c) ++ jsonBody rest
      else
        if (utf8Decode (c :: rest)).1 = 0xFFFD ∧ (utf8Decode (c :: rest)).2 = 1 then
          [92, 117, 102, 102, 102, 100] ++ jsonBody rest
        else if (utf8Decode (c :: rest)).1 = 0x2028 ∨ (utf8Decode (c :: rest)).1 = 0x2029 then
          [92, 117, 50, 48, 50, digitByte ((utf8Decode (c :: rest)).1 % 16)] ++
            jsonBody ((c :: rest).drop (utf8Decode (c :: rest)).2)
        else
          (c :: rest).take (utf8Decode (c :: rest)).2 ++
            jsonBody ((c :: rest).drop (utf8Decode (c :: rest)).2)) := by
  have hd := utf8Decode_size_pos (c :: rest) (by simp)
  show jsonBodyF (c :: rest).length (c :: rest) = _
  simp only [List.length_cons, jsonBodyF]
  split_ifs
  all_goals congr 1
  all_goals first
    | rfl
    | (apply jsonBody_fuel <;> (try simp only [List.length_drop, List.length_cons]) <;>
        omega)

theorem unqLoopF_stable (n : Nat) :
    ∀ (m : Nat) (s : List Nat), s.length ≤ n → s.length ≤ m →
      unqLoopF n s = unqLoopF m s := by
  induction n with
  | zero =>
    intro m s h1 h2
    have hs : s = [] := List.eq_nil_of_length_eq_zero (by omega)
    subst hs
    cases m <;> rfl
  | succ n ih =>
    intro m s h1 h2
    match s with
    | [] => cases m <;> rfl
    | c :: rest =>
      match m with
      | 0 => simp at h2
      | m + 1 =>
        simp only [unqLoopF]
        simp only [List.length_cons] at h1 h2
        split_ifs
        · rfl
        · rfl
        · match hu : unquoteChar (c :: rest) with
          | none => rfl
          | some (v, mb, tail) =>
            simp only []
            have hsh := unquoteChar_shrink _ _ _ _ hu
            simp only [List.length_cons] at hsh
            rw [ih m tail (by omega) (by omega)]

theorem unqRun_fuel (n : Nat) (s : List Nat) (h : s.length ≤ n) :
    unqLoopF n s = unqRun s :=
  unqLoopF_stable n s.length s h le_rfl

theorem unqRun_cons (c : Nat) (rest : List Nat) :
    unqRun (c :: rest) =
      (if c = 34 then some ([], rest)
      else if c = 10 then none
      else
        match unquoteChar (c :: rest) with
        | none => none
        | some (v, mb, tail) =>
          match unqRun tail with
          | none => none
          | some (out, rem) =>
            some ((if mb then utf8Encode v else [v % 256]) ++ out, rem)) := by
  show unqLoopF (c :: rest).length (c :: rest) = _
  simp only [List.length_cons, unqLoopF]
  split_ifs
  · rfl
  · rfl
  · match hu : unquoteChar (c :: rest) with
    | none => rfl
    | some (v, mb, tail) =>
      simp only []
      have hs := unquoteChar_shrink _ _ _ _ hu
      simp only [List.length_cons] at hs
      rw [unqRun_fuel rest.length tail (by omega)]


/-! ## Formatting helper lemmas -/

theorem xItem_eq (c : Nat) (h : c < 256) :
    xItem c = [92, 120, digitByte (c / 16), digitByte (c % 16)] := by
  unfold xItem
  by_cases h16 : c < 16
  · rw [formatUint_lt c 16 h16]
    have h1 : c / 16 = 0 := by omega
    have h2 : c % 16 = c := by omega
    rw [h1, h2]
    rfl
  · rw [formatUint_two c (by omega) h]
    rfl

theorem xBody_flat (b : List Nat) (h : allBytes b) :
    xBody b = b.flatMap (fun c => [92, 120, digitByte (c / 16), digitByte (c % 16)]) := by
  induction b with
  | nil => rfl
  | cons c rest ih =>
    unfold xBody
    rw [xItem_eq c (h c (by simp)), ih (fun x hx => h x (by simp [hx]))]
    rfl

theorem octetLoop_rest (pad : Bool) (b : List Nat) :
    octetLoop pad true b = (b.map (fun c => [44, 32] ++ octetItem pad c)).flatten := by
  induction b with
  | nil => rfl
  | cons c rest ih =>
    unfold octetLoop
    rw [ih]
    rfl

theorem intersperse_flatten (sep : List Nat) (xs : List (List Nat)) :
    ∀ x : List Nat, ((x :: xs).intersperse sep).flatten =
      x ++ (xs.map (fun y => sep ++ y)).flatten := by
  induction xs with
  | nil => intro x; simp
  | cons y ys ih =>
    intro x
    rw [List.intersperse_cons_cons, List.flatten_cons, List.flatten_cons, ih y]
    simp [List.append_assoc]

theorem octetLoop_join (pad : Bool) (b : List Nat) :
    octetLoop pad false b = ((b.map (octetItem pad)).intersperse [44, 32]).flatten := by
  match b with
  | [] => rfl
  | c :: rest =>
    unfold octetLoop
    rw [octetLoop_rest, List.map_cons, intersperse_flatten, List.map_map]
    rfl

/-! ## Backquote lemmas -/

/-- A sequence accepted by `CanBackquote` never contains a backquote byte. -/
theorem canBackquote_no_backquote (n : Nat) :
    ∀ b : List Nat, b.length ≤ n → canBackquote b = true → 96 ∉ b := by
  induction n with
  | zero =>
    intro b hb _
    have : b = [] := List.eq_nil_of_length_eq_zero (by omega)
    subst this
    simp
  | succ n ih =>
    intro b hb h
    match b with
    | [] => simp
    | c :: rest =>
      rw [canBackquote_cons] at h
      have hd := utf8Decode_size_pos (c :: rest) (by simp)
      rcases utf8Decode_spec (c :: rest) (by simp) with herr | ⟨henc, hlen, hval⟩
      · rw [herr] at h
        simp at h
      · by_cases hw : 1 < (utf8Decode (c :: rest)).2
        · rw [if_pos hw] at h
          split_ifs at h
          have hr80 : 0x80 ≤ (utf8Decode (c :: rest)).1 := by
            by_contra hlt
            have : utf8Encode (utf8Decode (c :: rest)).1 = [(utf8Decode (c :: rest)).1] := by
              unfold utf8Encode
              rw [if_pos (by omega)]
            rw [this] at hlen
            simp at hlen
            omega
          intro hmem
          rw [← List.take_append_drop ((utf8Decode (c :: rest)).2) (c :: rest)] at hmem
          rcases List.mem_append.mp hmem with hm1 | hm2
          · rw [← henc] at hm1
            have := utf8Encode_ge _ hr80 96 hm1
            omega
          · have hlen2 : (List.drop (utf8Decode (c :: rest)).2 (c :: rest)).length ≤ n := by
              simp only [List.length_drop, List.length_cons]
              simp only [List.length_cons] at hb
              omega
            exact ih _ hlen2 h hm2
        · rw [if_neg hw] at h
          have hw1 : (utf8Decode (c :: rest)).2 = 1 := by omega
          split_ifs at h with hfffd hctl
          have hc : (utf8Decode (c :: rest)).1 = c := by
            have h80 : (utf8Decode (c :: rest)).1 < 0x80 := by
              by_contra hge
              have := utf8Encode_ge (utf8Decode (c :: rest)).1 (by omega)
              have h2 : 2 ≤ (utf8Encode (utf8Decode (c :: rest)).1).length := by
                unfold utf8Encode
                split_ifs <;> simp <;> omega
              omega
            have : utf8Encode (utf8Decode (c :: rest)).1 = [(utf8Decode (c :: rest)).1] := by
              unfold utf8Encode
              rw [if_pos h80]
            rw [this, hw1] at henc
            simp [List.take_succ_cons] at henc
            exact henc
          intro hmem
          rcases List.mem_cons.mp hmem with rfl | hm2
          · rw [hc] at hctl
            simp at hctl
          · have hrest : List.drop (utf8Decode (c :: rest)).2 (c :: rest) = rest := by
              rw [hw1]
              rfl
            rw [hrest] at h
            refine ih rest ?_ h hm2
            simp only [List.length_cons] at hb
            omega

/-- Contrapositive form: a sequence containing a backquote is rejected. -/
theorem mem_backquote_not_canBackquote (b : List Nat) (h : 96 ∈ b) :
    canBackquote b = false := by
  by_contra hc
  have : canBackquote b = true := by
    cases hcb : canBackquote b
    · exact absurd hcb hc
    · rfl
  exact canBackquote_no_backquote b.length b le_rfl this h


/-! ## Claim theorems -/

/-- C9: for every byte sequence `b`, `write` with the empty mode tag succeeds
and produces exactly what mode `q` produces: the empty tag (the CLI case where
no mode token is passed) selects the default quoted mode instead of being
rejected as unknown. -/
theorem empty_mode_default (b : List Nat) :
    write b "" = .ok (goQuote b) ∧ write b "q" = .ok (goQuote b) ∧
      write b "" = write b "q" :=
  ⟨rfl, rfl, rfl⟩

/-- C8: `byte-slice` mode wraps the constructor text `[]byte(...)` around the
result of the `quoted` formatter, and `byte-slice-ascii` does the same around
the `quoted-ascii` formatter: one formatter invoking another by mode value. -/
theorem byte_slice_composition (b : List Nat) :
    write b "bs" =
      Except.map (fun inner => ascii "[]byte(" ++ inner ++ [41]) (write b "q") ∧
    write b "bsa" =
      Except.map (fun inner => ascii "[]byte(" ++ inner ++ [41]) (write b "qa") :=
  ⟨rfl, rfl⟩

/-- C5: `write` fails with an `UnknownMode` error carrying the offending mode
token on every tag outside the defined mode set, making the process exit
non-zero, and succeeds on every tag inside it. -/
theorem unknown_mode_error (b : List Nat) (mode : String) :
    (mode ∈ definedModes → (write b mode).isOk = true) ∧
    (mode ∉ definedModes →
      write b mode = .error (.unknownMode mode) ∧ exitCode (write b mode) ≠ 0) := by
  constructor
  · intro hm
    simp only [definedModes, List.mem_cons, List.not_mem_nil, or_false] at hm
    rcases hm with rfl | rfl | rfl | rfl | rfl | rfl | rfl | rfl | rfl | rfl | rfl | rfl | rfl
    all_goals first
      | rfl
      | (cases hcb : canBackquote b <;>
          simp [write, writeF, hcb, Except.isOk, Except.toBool])
  · intro hm
    simp only [definedModes, List.mem_cons, List.not_mem_nil, or_false, not_or] at hm
    obtain ⟨h1, h2, h3, h4, h5, h6, h7, h8, h9, h10, h11, h12, h13⟩ := hm
    have he : write b mode = .error (.unknownMode mode) := by
      show writeF 4 b mode [] false "q" = _
      simp only [writeF, h1, h2, h3, h4, h5, h6, h7, h8, h9, h10, h11, h12, h13,
        or_self, if_false]
    exact ⟨he, by rw [he]; simp [exitCode]⟩

/-- C5 witness: the defined mode `q` succeeds on empty input, and the unknown
mode `zz` is rejected with a diagnostic naming it and a non-zero exit. -/
theorem unknown_mode_error_witness :
    (write [] "q").isOk = true ∧
      (write [] "zz" = .error (.unknownMode "zz") ∧ exitCode (write [] "zz") ≠ 0) :=
  ⟨(unknown_mode_error [] "q").1 (by decide),
   (unknown_mode_error [] "zz").2 (by decide)⟩

/-- C6: mode `x` produces a double-quoted literal whose body renders every
byte of the input, in order, as a backslash-x escape with exactly two
lower-case hex digits (zero-padded for single-nibble bytes). -/
theorem hex_escaped_two_digits (b : List Nat) (h : allBytes b) :
    write b "x" =
      .ok ([34] ++ b.flatMap (fun c => [92, 120, digitByte (c / 16), digitByte (c % 16)])
        ++ [34]) := by
  show Except.ok ([34] ++ xBody b ++ [34]) = _
  rw [xBody_flat b h]

/-- C6 witness: on the bytes of `it's`, mode `x` produces the scenario output
from the specification. -/
theorem hex_escaped_witness :
    write [105, 116, 39, 115] "x" = .ok (ascii "\"\\x69\\x74\\x27\\x73\"") := by
  rw [hex_escaped_two_digits [105, 116, 39, 115] (by decide)]
  decide

/-- C7: both byte-array modes emit a fixed-size literal whose length
annotation is the decimal numeral of `b.length` (shown to denote exactly
`b.length` by re-evaluating it), and whose body is `b.length` many hex octet
items joined by commas. -/
theorem byte_array_length (b : List Nat) :
    write b "ba" =
      .ok ([91] ++ formatUint b.length 10 ++ ascii "]byte\x7b" ++
        ((b.map (octetItem false)).intersperse [44, 32]).flatten ++ [125]) ∧
    write b "0ba" =
      .ok ([91] ++ formatUint b.length 10 ++ ascii "]byte\x7b" ++
        ((b.map (octetItem true)).intersperse [44, 32]).flatten ++ [125]) ∧
    decValue (formatUint b.length 10) = b.length ∧
    (b.map (octetItem false)).length = b.length ∧
    (b.map (octetItem true)).length = b.length := by
  refine ⟨?_, ?_, decValue_formatUint b.length, List.length_map _ _, List.length_map _ _⟩
  · show Except.ok (octetsOut b (formatUint b.length 10) false) = _
    unfold octetsOut
    rw [octetLoop_join]
  · show Except.ok (octetsOut b (formatUint b.length 10) true) = _
    unfold octetsOut
    rw [octetLoop_join]

/-- C2 counterexample: for the input consisting of the single backquote byte,
mode `r` falls back to the quoted form, whose body (the text between the outer
double quotes) contains a backquote; the claim that the body never contains a
backquote is false as stated. -/
theorem backquoted_body_counterexample :
    write [96] "r" = .ok [34, 96, 34] ∧ 96 ∈ (([34, 96, 34].drop 1).dropLast) := by
  constructor
  · have h := mem_backquote_not_canBackquote [96] (by decide)
    simp [write, writeF, h]
    decide
  · decide

/-- C2 amended: when `CanBackquote` accepts the bytes, mode `r` emits the
backquoted form whose body is `b` itself and contains no backquote; when `b`
contains a backquote, `CanBackquote` rejects it and mode `r` produces exactly
the `quoted` output. -/
theorem backquoted_body_amended (b : List Nat) :
    (canBackquote b = true → write b "r" = .ok ([96] ++ b ++ [96]) ∧ 96 ∉ b) ∧
    (96 ∈ b → write b "r" = write b "q" ∧ canBackquote b = false) := by
  constructor
  · intro h
    refine ⟨by simp [write, writeF, h], canBackquote_no_backquote b.length b le_rfl h⟩
  · intro h
    have hc := mem_backquote_not_canBackquote b h
    exact ⟨by simp [write, writeF, hc], hc⟩

/-- C2 amended witness: the single byte `a` is backquotable and its
backquoted body contains no backquote; the single backquote byte forces the
fallback to the quoted mode. -/
theorem backquoted_body_amended_witness :
    (write [97] "r" = .ok ([96] ++ [97] ++ [96]) ∧ 96 ∉ [97]) ∧
      write [96] "r" = write [96] "q" :=
  ⟨(backquoted_body_amended [97]).1 (by decide),
   ((backquoted_body_amended [96]).2 (by decide)).1⟩

/-- C3 counterexample: the single newline byte contains no backquote and no
carriage return and is valid text, yet mode `r` does not wrap it in backquotes
(it produces the quoted form instead), because `CanBackquote` rejects every
control character other than tab. -/
theorem backquoted_condition_counterexample :
    96 ∉ [10] ∧ 13 ∉ [10] ∧ utf8Valid [10] = true ∧
      write [10] "r" = .ok [34, 92, 110, 34] ∧
      write [10] "r" ≠ .ok ([96] ++ [10] ++ [96]) := by
  refine ⟨by decide, by decide, by decide, ?_, ?_⟩
  · have h : canBackquote [10] = false := by decide
    simp [write, writeF, h]
    decide
  · have h : canBackquote [10] = false := by decide
    simp [write, writeF, h]
    decide

/-- C3 amended: mode `r` wraps the raw bytes in backquotes exactly when
`strconv.CanBackquote` accepts them (no backquote, no control character other
than tab -- which excludes carriage returns and newlines --, no DEL, no byte
order mark, and valid UTF-8); otherwise it produces the `quoted` output, and
the ASCII-fallback mode `ra` likewise wraps or produces the `quoted-ascii`
output. -/
theorem backquoted_fallback_amended (b : List Nat) :
    write b "r" =
      (if canBackquote b then .ok ([96] ++ b ++ [96]) else write b "q") ∧
    write b "ra" =
      (if canBackquote b then .ok ([96] ++ b ++ [96]) else write b "qa") := by
  cases h : canBackquote b <;> constructor <;> simp [write, writeF, h]


/-! ## JSON claim -/

theorem digitByte_ge (d : Nat) : 48 ≤ digitByte d ∧ digitByte d ≠ 34 := by
  unfold digitByte
  split_ifs <;> omega

theorem hexN_mem (k : Nat) : ∀ (r : Nat), ∀ x ∈ hexN k r, 48 ≤ x ∧ x ≠ 34 := by
  induction k with
  | zero => intro r x hx; simp [hexN] at hx
  | succ k ih =>
    intro r x hx
    unfold hexN at hx
    rcases List.mem_append.mp hx with h1 | h2
    · exact ih (r / 16) x h1
    · simp at h2
      subst h2
      exact digitByte_ge _

/-- In the valid-decode case with a non-ASCII first byte, the decoded rune is
itself non-ASCII and its encoding is the consumed prefix. -/
theorem utf8Decode_valid_ge (c : Nat) (rest : List Nat) (hc : 0x80 ≤ c)
    (hne : ¬((utf8Decode (c :: rest)).1 = 0xFFFD ∧ (utf8Decode (c :: rest)).2 = 1)) :
    utf8Encode (utf8Decode (c :: rest)).1 = (c :: rest).take (utf8Decode (c :: rest)).2 ∧
    (utf8Encode (utf8Decode (c :: rest)).1).length = (utf8Decode (c :: rest)).2 ∧
    validRune (utf8Decode (c :: rest)).1 = true ∧
    0x80 ≤ (utf8Decode (c :: rest)).1 ∧
    1 ≤ (utf8Decode (c :: rest)).2 := by
  have hpos := utf8Decode_size_pos (c :: rest) (by simp)
  rcases utf8Decode_spec (c :: rest) (by simp) with herr | ⟨henc, hlen, hval⟩
  · rw [herr] at hne
    simp at hne
  · refine ⟨henc, hlen, hval, ?_, hpos⟩
    by_contra hlt
    have he1 : utf8Encode (utf8Decode (c :: rest)).1 = [(utf8Decode (c :: rest)).1] := by
      unfold utf8Encode
      rw [if_pos (by omega)]
    rw [he1] at henc hlen
    simp at hlen
    rw [← hlen] at henc
    simp [List.take_succ_cons] at henc
    omega

theorem jsonBody_wf (n : Nat) :
    ∀ b : List Nat, b.length ≤ n → ∀ x ∈ jsonBody b, 0x20 ≤ x := by
  induction n with
  | zero =>
    intro b hb x hx
    have : b = [] := List.eq_nil_of_length_eq_zero (by omega)
    subst this
    simp [jsonBody, jsonBodyF] at hx
  | succ n ih =>
    intro b hb x hx
    match b with
    | [] => simp [jsonBody, jsonBodyF] at hx
    | c :: rest =>
      simp only [List.length_cons] at hb
      rw [jsonBody_cons] at hx
      by_cases hc : c < 0x80
      · rw [if_pos hc] at hx
        by_cases hs : htmlSafe c
        · rw [if_pos hs] at hx
          rcases List.mem_cons.mp hx with rfl | h2
          · unfold htmlSafe at hs
            have := of_decide_eq_true hs
            omega
          · exact ih rest (by omega) x h2

        · rw [if_neg hs] at hx
          rcases List.mem_append.mp hx with h1 | h2
          · split_ifs at h1
            all_goals
              first
                | (simp at h1; omega)
                | (rcases List.mem_append.mp h1 with ha | hb
                   · simp at ha
                     omega
                   · have := hexN_mem 2 c x hb
                     omega)
          · exact ih rest (by omega) x h2
      · rw [if_neg hc] at hx
        by_cases hinv : (utf8Decode (c :: rest)).1 = 0xFFFD ∧ (utf8Decode (c :: rest)).2 = 1
        · rw [if_pos hinv] at hx
          rcases List.mem_append.mp hx with h1 | h2
          · simp at h1
            omega
          · exact ih rest (by omega) x h2
        · rw [if_neg hinv] at hx
          obtain ⟨henc, hlen, hval, hge, hpos⟩ := utf8Decode_valid_ge c rest (by omega) hinv
          split_ifs at hx
          · rcases List.mem_append.mp hx with h1 | h2
            · simp at h1
              have hd := digitByte_ge ((utf8Decode (c :: rest)).1 % 16)
              omega
            · refine ih _ ?_ x h2
              simp only [List.length_drop, List.length_cons]
              omega
          · rcases List.mem_append.mp hx with h1 | h2
            · rw [← henc] at h1
              have := utf8Encode_ge _ hge x h1
              omega
            · refine ih _ ?_ x h2
              simp only [List.length_drop, List.length_cons]
              omega

/-- C4 counterexample: the single byte `0xFF` is not valid text, yet mode `j`
does not fail: `json.Marshal` of a Go string never returns an error -- invalid
UTF-8 is replaced by the escape text of the replacement character -- so the
error branch guarding it in `write` is unreachable and no `EncodingError`
exists for this mode. -/
theorem json_error_counterexample :
    utf8Valid [255] = false ∧ write [255] "j" = .ok (ascii "\"\\ufffd\"") := by
  decide

/-- C4 amended: mode `j` succeeds on every byte sequence, producing the
double-quoted JSON encoding of the bytes read as text (invalid bytes replaced
by replacement-character escapes); the body between the quotes contains no raw
control byte -- every control character is escaped, as the JSON grammar
requires. -/
theorem json_total_amended (b : List Nat) :
    write b "j" = .ok ([34] ++ jsonBody b ++ [34]) ∧
    (∀ x ∈ jsonBody b, 0x20 ≤ x) :=
  ⟨rfl, jsonBody_wf b.length b le_rfl⟩

/-- C4 amended witness: on the bytes `[10, 255]` mode `j` yields the literal
text for a newline escape followed by a replacement-character escape, and the
byte `92` found in that body is indeed not a raw control byte. -/
theorem json_total_amended_witness :
    write [10, 255] "j" = .ok [34, 92, 110, 92, 117, 102, 102, 102, 100, 34] ∧
      (0x20 ≤ (92 : Nat)) := by
  refine ⟨?_, (json_total_amended [10, 255]).2 92 (by decide)⟩
  rw [(json_total_amended [10, 255]).1]
  decide

/-! ## Equivalence of the two revisions (C10) -/

/-- C10: on every mode tag recognized by both program revisions, the `write`
function of `src/goquote.go` and the one of `src/unnamed/part_000` append the
same text, despite the differently structured fallthrough and goto dispatch. -/
theorem write_old_new_equivalent (b : List Nat) (mode : String)
    (h : mode ∈ sharedModes) : writeOld b mode = write b mode := by
  simp only [sharedModes, List.mem_cons, List.not_mem_nil, or_false] at h
  rcases h with rfl | rfl | rfl | rfl | rfl | rfl | rfl | rfl | rfl | rfl | rfl | rfl
  all_goals first
    | rfl
    | (cases hcb : canBackquote b <;> simp [write, writeF, writeOld, writeOldF, hcb])

/-- C10 witness: both revisions agree on the newline byte under mode `ra` (a
case that exercises the backquote fallback path). -/
theorem write_old_new_equivalent_witness : writeOld [10] "ra" = write [10] "ra" :=
  write_old_new_equivalent [10] "ra" (by decide)


theorem hexN_cons (k : Nat) :
    ∀ r : Nat, hexN (k + 1) r = digitByte (r / 16 ^ k % 16) :: hexN k r := by
  induction k with
  | zero =>
    intro r
    show hexN 0 (r / 16) ++ [digitByte (r % 16)] = digitByte (r / 16 ^ 0 % 16) :: hexN 0 r
    simp [hexN, Nat.pow_zero, Nat.div_one]
  | succ k ih =>
    intro r
    have step : hexN (k + 1 + 1) r = hexN (k + 1) (r / 16) ++ [digitByte (r % 16)] := rfl
    rw [step, ih (r / 16)]
    have harg : r / 16 / 16 ^ k = r / 16 ^ (k + 1) := by
      rw [Nat.div_div_eq_div_mul, ← Nat.pow_succ']
    rw [harg]
    rfl

theorem readHex_hexN (k : Nat) :
    ∀ (acc r : Nat) (t : List Nat),
      readHex k (hexN k r ++ t) acc = some (acc * 16 ^ k + r % 16 ^ k, t) := by
  induction k with
  | zero =>
    intro acc r t
    unfold hexN readHex
    simp [Nat.mod_one]
  | succ k ih =>
    intro acc r t
    rw [hexN_cons k r]
    have hd : r / 16 ^ k % 16 < 16 := Nat.mod_lt _ (by omega)
    show readHex (k + 1) (digitByte (r / 16 ^ k % 16) :: (hexN k r ++ t)) acc = _
    unfold readHex
    rw [hexVal_digitByte _ hd]
    show readHex k (hexN k r ++ t) (16 * acc + r / 16 ^ k % 16) =
      some (acc * 16 ^ (k + 1) + r % 16 ^ (k + 1), t)
    rw [ih]
    congr 2
    have h16 : (16 : Nat) ^ (k + 1) = 16 ^ k * 16 := by rw [Nat.pow_succ]
    rw [h16, Nat.mod_mul]
    ring

theorem unquoteChar_x (c : Nat) (h : c < 256) (t : List Nat) :
    unquoteChar (92 :: 120 :: (hexN 2 c ++ t)) = some (c, false, t) := by
  have hr := readHex_hexN 2 0 c t
  have hm : c % 16 ^ 2 = c := Nat.mod_eq_of_lt (by omega)
  rw [hm] at hr
  simp only [unquoteChar]
  norm_num
  rw [hr]
  norm_num

theorem unquoteChar_u (r : Nat) (h : r < 0x10000) (hv : validRune r = true) (t : List Nat) :
    unquoteChar (92 :: 117 :: (hexN 4 r ++ t)) = some (r, true, t) := by
  have hr := readHex_hexN 4 0 r t
  have hm : r % 16 ^ 4 = r := Nat.mod_eq_of_lt (by omega)
  rw [hm] at hr
  simp only [unquoteChar]
  norm_num
  rw [hr]
  norm_num [hv]

theorem unquoteChar_bigU (r : Nat) (h : r ≤ 0x10FFFF) (hv : validRune r = true) (t : List Nat) :
    unquoteChar (92 :: 85 :: (hexN 8 r ++ t)) = some (r, true, t) := by
  have hr := readHex_hexN 8 0 r t
  have hm : r % 16 ^ 8 = r := Nat.mod_eq_of_lt (by omega)
  rw [hm] at hr
  simp only [unquoteChar]
  norm_num
  rw [hr]
  norm_num [hv]


/-- A literal non-special ASCII byte decodes to itself. -/
theorem unquoteChar_lit (c : Nat) (hlt : c < 0x80) (h34 : c ≠ 34) (h92 : c ≠ 92)
    (t : List Nat) : unquoteChar (c :: t) = some (c, false, t) := by
  simp only [unquoteChar]
  rw [if_neg h34, if_neg (by omega), if_pos h92]

/-- The encoding of a valid non-ASCII rune decodes back to that rune,
consuming exactly the encoding. -/
theorem unquoteChar_encode (r : Nat) (hr : 0x80 ≤ r) (hv : validRune r = true)
    (t : List Nat) : unquoteChar (utf8Encode r ++ t) = some (r, true, t) := by
  match he : utf8Encode r with
  | [] => exact absurd he (utf8Encode_ne_nil r)
  | c0 :: e1 =>
    have hc0 : 0x80 ≤ c0 := utf8Encode_ge r hr c0 (by rw [he]; simp)
    have hdec := utf8Decode_encode r hv t
    rw [he] at hdec
    show unquoteChar (c0 :: (e1 ++ t)) = _
    simp only [unquoteChar]
    rw [if_neg (by omega), if_pos hc0]
    simp only [List.cons_append] at hdec
    rw [hdec]
    have hdrop : List.drop (e1.length + 1) (c0 :: (e1 ++ t)) = t := by
      simp [List.drop_append]
    show some (r, true, List.drop (e1.length + 1) (c0 :: (e1 ++ t))) = some (r, true, t)
    rw [hdrop]

/-- One loop step of the unquoting scan: whatever `unquoteChar` decodes is
prepended (re-encoded if it is a rune) and the scan continues on what it
leaves. -/
theorem unqRun_step (c : Nat) (s2 tail : List Nat) (v : Nat) (mb : Bool)
    (h34 : c ≠ 34) (h10 : c ≠ 10)
    (hu : unquoteChar (c :: s2) = some (v, mb, tail)) :
    unqRun (c :: s2) =
      Option.map (fun p => ((if mb then utf8Encode v else [v % 256]) ++ p.1, p.2))
        (unqRun tail) := by
  rw [unqRun_cons, if_neg h34, if_neg h10, hu]
  simp only []
  cases unqRun tail with
  | none => rfl
  | some p => rfl

theorem unqRun_step_byte (c : Nat) (s2 tail : List Nat) (v : Nat)
    (h34 : c ≠ 34) (h10 : c ≠ 10) (hv : v < 256)
    (hu : unquoteChar (c :: s2) = some (v, false, tail)) :
    unqRun (c :: s2) = Option.map (fun p => (v :: p.1, p.2)) (unqRun tail) := by
  rw [unqRun_step c s2 tail v false h34 h10 hu]
  cases unqRun tail with
  | none => rfl
  | some p => simp [Nat.mod_eq_of_lt hv]

theorem unqRun_step_rune (c : Nat) (s2 tail : List Nat) (v : Nat)
    (h34 : c ≠ 34) (h10 : c ≠ 10)
    (hu : unquoteChar (c :: s2) = some (v, true, tail)) :
    unqRun (c :: s2) = Option.map (fun p => (utf8Encode v ++ p.1, p.2)) (unqRun tail) := by
  rw [unqRun_step c s2 tail v true h34 h10 hu]
  cases unqRun tail with
  | none => rfl
  | some p => rfl

/-- The scan consumes a whole valid multi-byte encoding and passes its bytes
through. -/
theorem unqRun_step_encode (r : Nat) (hr : 0x80 ≤ r) (hv : validRune r = true)
    (T : List Nat) :
    unqRun (utf8Encode r ++ T) =
      Option.map (fun p => (utf8Encode r ++ p.1, p.2)) (unqRun T) := by
  match he : utf8Encode r with
  | [] => exact absurd he (utf8Encode_ne_nil r)
  | c0 :: e1 =>
    have hc0 : 0x80 ≤ c0 := utf8Encode_ge r hr c0 (by rw [he]; simp)
    have hu : unquoteChar (c0 :: (e1 ++ T)) = some (r, true, T) := by
      have h1 := unquoteChar_encode r hr hv T
      rw [he] at h1
      exact h1
    show unqRun (c0 :: (e1 ++ T)) = _
    rw [unqRun_step_rune c0 (e1 ++ T) T r (by omega) (by omega) hu]
    rw [← he]

/-- The quote loop on an ASCII byte: width one, never the invalid-byte path. -/
theorem quoteBody_cons_ascii (a : Bool) (c : Nat) (rest : List Nat) (hc : c < 0x80) :
    quoteBody a (c :: rest) = appendEscapedRune c a ++ quoteBody a rest := by
  rw [quoteBody_cons]
  have hpair : (if c < 0x80 then (c, 1) else utf8Decode (c :: rest)) = (c, 1) := if_pos hc
  rw [hpair, if_neg (by simp; omega)]
  rfl

/-- The quote loop on an invalid byte: a two-digit hex escape of that byte. -/
theorem quoteBody_cons_invalid (a : Bool) (c : Nat) (rest : List Nat) (hc : ¬c < 0x80)
    (hinv : (utf8Decode (c :: rest)).2 = 1 ∧ (utf8Decode (c :: rest)).1 = 0xFFFD) :
    quoteBody a (c :: rest) = [92, 120] ++ hexN 2 c ++ quoteBody a rest := by
  rw [quoteBody_cons]
  have hpair : (if c < 0x80 then (c, 1) else utf8Decode (c :: rest)) = utf8Decode (c :: rest) :=
    if_neg hc
  rw [hpair, if_pos hinv]
  rfl

/-- The quote loop on a validly decoded multi-byte rune. -/
theorem quoteBody_cons_valid (a : Bool) (c : Nat) (rest : List Nat) (hc : ¬c < 0x80)
    (hinv : ¬((utf8Decode (c :: rest)).2 = 1 ∧ (utf8Decode (c :: rest)).1 = 0xFFFD)) :
    quoteBody a (c :: rest) =
      appendEscapedRune (utf8Decode (c :: rest)).1 a ++
        quoteBody a ((c :: rest).drop (utf8Decode (c :: rest)).2) := by
  rw [quoteBody_cons]
  have hpair : (if c < 0x80 then (c, 1) else utf8Decode (c :: rest)) = utf8Decode (c :: rest) :=
    if_neg hc
  rw [hpair, if_neg hinv]


/-- The round-trip induction: the quoted body of `b` followed by any tail
scans to `b` followed by whatever the tail scans to. -/
theorem quote_roundtrip_aux (n : Nat) :
    ∀ b t : List Nat, b.length ≤ n → allBytes b →
      unqRun (quoteBody false b ++ t) =
        Option.map (fun p => (b ++ p.1, p.2)) (unqRun t) := by
  induction n with
  | zero =>
    intro b t hb _
    have hbnil : b = [] := List.eq_nil_of_length_eq_zero (by omega)
    subst hbnil
    show unqRun t = _
    cases unqRun t with
    | none => rfl
    | some p => rfl
  | succ n ih =>
    intro b t hb hB
    match b with
    | [] =>
      show unqRun t = _
      cases unqRun t with
      | none => rfl
      | some p => rfl
    | c :: rest =>
      have hBrest : allBytes rest := fun x hx => hB x (List.mem_cons_of_mem c hx)
      have hc256 : c < 256 := hB c (List.mem_cons_self c rest)
      simp only [List.length_cons] at hb
      by_cases hc : c < 0x80
      · rw [quoteBody_cons_ascii false c rest hc]
        by_cases hq : c = 34 ∨ c = 92
        · have happ : appendEscapedRune c false = [92, c] := by
            unfold appendEscapedRune
            rw [if_pos hq]
          rw [happ]
          simp only [List.cons_append, List.nil_append, List.append_assoc]
          have hu : unquoteChar (92 :: c :: (quoteBody false rest ++ t)) =
              some (c, false, quoteBody false rest ++ t) := by
            rcases hq with rfl | rfl
            · simp only [unquoteChar]
              norm_num
            · simp only [unquoteChar]
              norm_num
          rw [unqRun_step_byte 92 _ _ c (by omega) (by omega) (by omega) hu]
          rw [ih rest t (by omega) hBrest]
          cases unqRun t with
          | none => rfl
          | some p => simp
        · by_cases hp : goIsPrint c = true
          · have happ : appendEscapedRune c false = utf8Encode c := by
              unfold appendEscapedRune
              rw [if_neg hq, if_neg (by simp), if_pos hp]
            have henc : utf8Encode c = [c] := by
              unfold utf8Encode
              rw [if_pos hc]
            rw [happ, henc]
            simp only [List.cons_append, List.nil_append]
            have h20 : 0x20 ≤ c ∧ c < 0x7F := by
              unfold goIsPrint at hp
              have := of_decide_eq_true hp
              omega
            have hu := unquoteChar_lit c hc (by omega) (by omega) (quoteBody false rest ++ t)
            rw [unqRun_step_byte c _ _ c (by omega) (by omega) (by omega) hu]
            rw [ih rest t (by omega) hBrest]
            cases unqRun t with
            | none => rfl
            | some p => simp
          · have happ : appendEscapedRune c false = escFallback c := by
              unfold appendEscapedRune
              rw [if_neg hq, if_neg (by simp), if_neg hp]
            rw [happ]
            have hnp : c < 0x20 ∨ c = 0x7F := by
              by_contra hcon
              push_neg at hcon
              exact hp (by unfold goIsPrint; exact decide_eq_true (by omega))
            unfold escFallback
            by_cases h7 : c = 7
            · subst h7
              rw [if_pos rfl]
              simp only [List.cons_append, List.nil_append, List.append_assoc]
              have hu : unquoteChar (92 :: 97 :: (quoteBody false rest ++ t)) =
                  some (7, false, quoteBody false rest ++ t) := by
                simp only [unquoteChar]
                norm_num
              rw [unqRun_step_byte 92 _ _ 7 (by omega) (by omega) (by omega) hu]
              rw [ih rest t (by omega) hBrest]
              cases unqRun t with
              | none => rfl
              | some p => simp
            · rw [if_neg h7]
              by_cases h8 : c = 8
              · subst h8
                rw [if_pos rfl]
                simp only [List.cons_append, List.nil_append, List.append_assoc]
                have hu : unquoteChar (92 :: 98 :: (quoteBody false rest ++ t)) =
                    some (8, false, quoteBody false rest ++ t) := by
                  simp only [unquoteChar]
                  norm_num
                rw [unqRun_step_byte 92 _ _ 8 (by omega) (by omega) (by omega) hu]
                rw [ih rest t (by omega) hBrest]
                cases unqRun t with
                | none => rfl
                | some p => simp
              · rw [if_neg h8]
                by_cases h12 : c = 12
                · subst h12
                  rw [if_pos rfl]
                  simp only [List.cons_append, List.nil_append, List.append_assoc]
                  have hu : unquoteChar (92 :: 102 :: (quoteBody false rest ++ t)) =
                      some (12, false, quoteBody false rest ++ t) := by
                    simp only [unquoteChar]
                    norm_num
                  rw [unqRun_step_byte 92 _ _ 12 (by omega) (by omega) (by omega) hu]
                  rw [ih rest t (by omega) hBrest]
                  cases unqRun t with
                  | none => rfl
                  | some p => simp
                · rw [if_neg h12]
                  by_cases h10 : c = 10
                  · subst h10
                    rw [if_pos rfl]
                    simp only [List.cons_append, List.nil_append, List.append_assoc]
                    have hu : unquoteChar (92 :: 110 :: (quoteBody false rest ++ t)) =
                        some (10, false, quoteBody false rest ++ t) := by
                      simp only [unquoteChar]
                      norm_num
                    rw [unqRun_step_byte 92 _ _ 10 (by omega) (by omega) (by omega) hu]
                    rw [ih rest t (by omega) hBrest]
                    cases unqRun t with
                    | none => rfl
                    | some p => simp
                  · rw [if_neg h10]
                    by_cases h13 : c = 13
                    · subst h13
                      rw [if_pos rfl]
                      simp only [List.cons_append, List.nil_append, List.append_assoc]
                      have hu : unquoteChar (92 :: 114 :: (quoteBody false rest ++ t)) =
                          some (13, false, quoteBody false rest ++ t) := by
                        simp only [unquoteChar]
                        norm_num
                      rw [unqRun_step_byte 92 _ _ 13 (by omega) (by omega) (by omega) hu]
                      rw [ih rest t (by omega) hBrest]
                      cases unqRun t with
                      | none => rfl
                      | some p => simp
                    · rw [if_neg h13]
                      by_cases h9 : c = 9
                      · subst h9
                        rw [if_pos rfl]
                        simp only [List.cons_append, List.nil_append, List.append_assoc]
                        have hu : unquoteChar (92 :: 116 :: (quoteBody false rest ++ t)) =
                            some (9, false, quoteBody false rest ++ t) := by
                          simp only [unquoteChar]
                          norm_num
                        rw [unqRun_step_byte 92 _ _ 9 (by omega) (by omega) (by omega) hu]
                        rw [ih rest t (by omega) hBrest]
                        cases unqRun t with
                        | none => rfl
                        | some p => simp
                      · rw [if_neg h9]
                        by_cases h11 : c = 11
                        · subst h11
                          rw [if_pos rfl]
                          simp only [List.cons_append, List.nil_append, List.append_assoc]
                          have hu : unquoteChar (92 :: 118 :: (quoteBody false rest ++ t)) =
                              some (11, false, quoteBody false rest ++ t) := by
                            simp only [unquoteChar]
                            norm_num
                          rw [unqRun_step_byte 92 _ _ 11 (by omega) (by omega) (by omega) hu]
                          rw [ih rest t (by omega) hBrest]
                          cases unqRun t with
                          | none => rfl
                          | some p => simp
                        · rw [if_neg h11, if_pos hnp]
                          simp only [List.cons_append, List.nil_append, List.append_assoc]
                          have hu := unquoteChar_x c (by omega) (quoteBody false rest ++ t)
                          rw [unqRun_step_byte 92 _ _ c (by omega) (by omega) (by omega) hu]
                          rw [ih rest t (by omega) hBrest]
                          cases unqRun t with
                          | none => rfl
                          | some p => simp
      · by_cases hinv : (utf8Decode (c :: rest)).2 = 1 ∧ (utf8Decode (c :: rest)).1 = 0xFFFD
        · rw [quoteBody_cons_invalid false c rest hc hinv]
          simp only [List.cons_append, List.nil_append, List.append_assoc]
          have hu := unquoteChar_x c hc256 (quoteBody false rest ++ t)
          rw [unqRun_step_byte 92 _ _ c (by omega) (by omega) (by omega) hu]
          rw [ih rest t (by omega) hBrest]
          cases unqRun t with
          | none => rfl
          | some p => simp
        · rw [quoteBody_cons_valid false c rest hc hinv]
          obtain ⟨henc, hlen, hval, hge, hpos⟩ :=
            utf8Decode_valid_ge c rest (by omega) (fun h => hinv ⟨h.2, h.1⟩)
          have hBdrop : allBytes ((c :: rest).drop (utf8Decode (c :: rest)).2) :=
            fun x hx => hB x (List.mem_of_mem_drop hx)
          have hlen2 : ((c :: rest).drop (utf8Decode (c :: rest)).2).length ≤ n := by
            simp only [List.length_drop, List.length_cons]
            omega
          by_cases hp : goIsPrint (utf8Decode (c :: rest)).1 = true
          · have happ : appendEscapedRune (utf8Decode (c :: rest)).1 false =
                utf8Encode (utf8Decode (c :: rest)).1 := by
              unfold appendEscapedRune
              rw [if_neg (by omega), if_neg (by simp), if_pos hp]
            rw [happ]
            simp only [List.append_assoc]
            rw [unqRun_step_encode (utf8Decode (c :: rest)).1 hge hval _]
            rw [ih _ t hlen2 hBdrop]
            cases unqRun t with
            | none => rfl
            | some p =>
              simp only [Option.map]
              rw [henc, ← List.append_assoc, List.take_append_drop]
              try rfl
          · have happ : appendEscapedRune (utf8Decode (c :: rest)).1 false =
                escFallback (utf8Decode (c :: rest)).1 := by
              unfold appendEscapedRune
              rw [if_neg (by omega), if_neg (by simp), if_neg hp]
            rw [happ]
            have hesc : escFallback (utf8Decode (c :: rest)).1 =
                (if (utf8Decode (c :: rest)).1 < 0x10000 then
                  [92, 117] ++ hexN 4 (utf8Decode (c :: rest)).1
                else [92, 85] ++ hexN 8 (utf8Decode (c :: rest)).1) := by
              unfold escFallback
              have e1 : (utf8Decode (c :: rest)).1 ≠ 7 := by omega
              have e2 : (utf8Decode (c :: rest)).1 ≠ 8 := by omega
              have e3 : (utf8Decode (c :: rest)).1 ≠ 12 := by omega
              have e4 : (utf8Decode (c :: rest)).1 ≠ 10 := by omega
              have e5 : (utf8Decode (c :: rest)).1 ≠ 13 := by omega
              have e6 : (utf8Decode (c :: rest)).1 ≠ 9 := by omega
              have e7 : (utf8Decode (c :: rest)).1 ≠ 11 := by omega
              have e8 : ¬((utf8Decode (c :: rest)).1 < 0x20 ∨
                  (utf8Decode (c :: rest)).1 = 0x7F) := by omega
              have e9 : ¬(validRune (utf8Decode (c :: rest)).1 = false) := by simp [hval]
              rw [if_neg e1, if_neg e2, if_neg e3, if_neg e4, if_neg e5, if_neg e6,
                if_neg e7, if_neg e8, if_neg e9]
            rw [hesc]
            by_cases hlt : (utf8Decode (c :: rest)).1 < 0x10000
            · rw [if_pos hlt]
              simp only [List.cons_append, List.nil_append, List.append_assoc]
              have hu := unquoteChar_u (utf8Decode (c :: rest)).1 hlt hval
                (quoteBody false ((c :: rest).drop (utf8Decode (c :: rest)).2) ++ t)
              rw [unqRun_step_rune 92 _ _ (utf8Decode (c :: rest)).1 (by omega) (by omega) hu]
              rw [ih _ t hlen2 hBdrop]
              cases unqRun t with
              | none => rfl
              | some p =>
                simp only [Option.map]
                rw [henc, ← List.append_assoc, List.take_append_drop]
                try rfl
            · rw [if_neg hlt]
              have hmax : (utf8Decode (c :: rest)).1 ≤ 0x10FFFF := by
                unfold validRune at hval
                have := of_decide_eq_true hval
                omega
              simp only [List.cons_append, List.nil_append, List.append_assoc]
              have hu := unquoteChar_bigU (utf8Decode (c :: rest)).1 hmax hval
                (quoteBody false ((c :: rest).drop (utf8Decode (c :: rest)).2) ++ t)
              rw [unqRun_step_rune 92 _ _ (utf8Decode (c :: rest)).1 (by omega) (by omega) hu]
              rw [ih _ t hlen2 hBdrop]
              cases unqRun t with
              | none => rfl
              | some p =>
                simp only [Option.map]
                rw [henc, ← List.append_assoc, List.take_append_drop]
                try rfl


/-- Unquoting the full quoted literal of `b` recovers exactly `b`. -/
theorem goUnquote_goQuote (b : List Nat) (h : allBytes b) :
    goUnquote (goQuote b) = some b := by
  have haux := quote_roundtrip_aux b.length b [34] le_rfl h
  have h34 : unqRun [34] = some ([], []) := rfl
  rw [h34] at haux
  simp only [Option.map, List.append_nil] at haux
  have hred : goUnquote (goQuote b) =
      (match unqRun (quoteBody false b ++ [34]) with
       | some (out, []) => some out
       | _ => none) := rfl
  rw [hred, haux]

/-- C1: for every byte sequence `b` (valid UTF-8 or not), the default quoted
mode produces `strconv.Quote` of `b`, and decoding that literal under the Go
double-quoted string-literal unescaping rule (`strconv.Unquote`) yields
exactly `b` again. -/
theorem quoted_roundtrip (b : List Nat) (h : allBytes b) :
    write b "q" = .ok (goQuote b) ∧ goUnquote (goQuote b) = some b :=
  ⟨rfl, goUnquote_goQuote b h⟩

/-- C1 witness: a concrete byte sequence mixing printable ASCII, an invalid
UTF-8 byte, a newline, a NUL, a quote, and a backslash round-trips. -/
theorem quoted_roundtrip_witness :
    write [105, 255, 10, 0, 34, 92] "q" = .ok (goQuote [105, 255, 10, 0, 34, 92]) ∧
      goUnquote (goQuote [105, 255, 10, 0, 34, 92]) = some [105, 255, 10, 0, 34, 92] :=
  quoted_roundtrip [105, 255, 10, 0, 34, 92] (by decide)

end GoQuote